import Mathlib

/-!
Verification of the token-splicing utility (`src/lib.rs`): the attribute
splitter `split_attrs` and the two operators `prepend` and `append`.

The data model follows `proc_macro`: a token tree is a group (with one of
four delimiter kinds and a nested stream), an identifier, a punctuation
character with a spacing flag, or a literal. A token stream is a list of
token trees. Identifier and literal payloads are modelled as strings; the
code never inspects them.
-/

/-- The spacing flag attached to a punctuation token (`proc_macro::Spacing`). -/
inductive Spacing where
  | alone
  | joint
deriving DecidableEq, Repr

/-- Delimiter kinds of a group (`proc_macro::Delimiter`). -/
inductive Delimiter where
  | parenthesis
  | brace
  | bracket
  | none
deriving DecidableEq, Repr

/-- One token (`proc_macro::TokenTree`). -/
inductive TokenTree where
  | group : Delimiter → List TokenTree → TokenTree
  | ident : String → TokenTree
  | punct : Char → Spacing → TokenTree
  | literal : String → TokenTree

/-- The loop of `split_attrs` in `src/lib.rs` (lines 77–94): `attrs` is the
accumulator; each iteration takes the next two tokens from the stream. If they
are a `#` punctuation followed by a bracket-delimited group, both are appended
to `attrs` and the loop continues; otherwise the loop returns `attrs` together
with the tokens already taken (in order) followed by the rest of the stream. -/
def splitAttrsGo (attrs : List TokenTree) : List TokenTree → List TokenTree × List TokenTree
  | TokenTree.punct c sp :: TokenTree.group d inner :: rest =>
      if c == '#' && d == Delimiter.bracket then
        splitAttrsGo (attrs ++ [TokenTree.punct c sp, TokenTree.group d inner]) rest
      else
        (attrs, TokenTree.punct c sp :: TokenTree.group d inner :: rest)
  | ts => (attrs, ts)

/-- `split_attrs` from `src/lib.rs` (lines 74–95). -/
def split_attrs (item : List TokenTree) : List TokenTree × List TokenTree :=
  splitAttrsGo [] item

/-- `prepend` from `src/lib.rs` (lines 100–104): split off the item's leading
attributes, then emit attributes, injected tokens, and the rest in order. -/
def prepend (attr item : List TokenTree) : List TokenTree :=
  let (item_attrs, rest) := split_attrs item
  item_attrs ++ attr ++ rest

/-- `append` from `src/lib.rs` (lines 109–112): emit the item followed by the
injected tokens. -/
def append (attr item : List TokenTree) : List TokenTree :=
  item ++ attr

/-- A stream begins with an annotation pair: a `#` punctuation token
immediately followed by a bracket-delimited group. -/
def startsWithPair : List TokenTree → Bool
  | TokenTree.punct c _ :: TokenTree.group d _ :: _ =>
      (c == '#') && (d == Delimiter.bracket)
  | _ => false

/-- A stream is a concatenation of zero or more annotation pairs: alternating
`#` punctuation tokens and bracket-delimited groups, starting with `#`. -/
def isAttrList : List TokenTree → Bool
  | [] => true
  | TokenTree.punct c _ :: TokenTree.group d _ :: rest =>
      (c == '#') && (d == Delimiter.bracket) && isAttrList rest
  | _ => false

theorem go_roundtrip (attrs ts : List TokenTree) :
    (splitAttrsGo attrs ts).1 ++ (splitAttrsGo attrs ts).2 = attrs ++ ts := by
  induction attrs, ts using splitAttrsGo.induct with
  | case1 attrs c sp d inner rest h ih =>
      rw [splitAttrsGo]
      simp only [if_pos h]
      simpa using ih
  | case2 attrs c sp d inner rest h =>
      rw [splitAttrsGo, if_neg h]
  | case3 attrs ts h =>
      rw [splitAttrsGo]
      exact h

theorem go_stop (attrs ts : List TokenTree) (h : startsWithPair ts = false) :
    splitAttrsGo attrs ts = (attrs, ts) := by
  cases ts with
  | nil => rfl
  | cons t1 ts1 =>
    cases ts1 with
    | nil => cases t1 <;> rfl
    | cons t2 ts2 =>
      cases t1 <;> cases t2 <;> try rfl
      rename_i c sp d inner
      have h' : (c == '#' && d == Delimiter.bracket) = false := h
      rw [splitAttrsGo, if_neg (by simp [h'])]

theorem go_all_attrs (attrs ts : List TokenTree) :
    isAttrList ts = true → splitAttrsGo attrs ts = (attrs ++ ts, []) := by
  induction attrs, ts using splitAttrsGo.induct with
  | case1 attrs c sp d inner rest hcond ih =>
      intro h
      simp only [isAttrList, Bool.and_eq_true] at h
      rw [splitAttrsGo, if_pos hcond, ih h.2]
      simp
  | case2 attrs c sp d inner rest hcond =>
      intro h
      simp only [isAttrList, Bool.and_eq_true] at h
      exact absurd (by simp [h.1.1, h.1.2]) hcond
  | case3 attrs ts hshape =>
      intro h
      cases ts with
      | nil => simp [splitAttrsGo]
      | cons t1 ts1 =>
        exfalso
        cases ts1 with
        | nil => cases t1 <;> simp [isAttrList] at h
        | cons t2 ts2 =>
          cases t1 <;> cases t2 <;> simp [isAttrList] at h
          exact hshape _ _ _ _ _ rfl

theorem go_skip (pre : List TokenTree) :
    isAttrList pre = true →
      ∀ attrs ts, splitAttrsGo attrs (pre ++ ts) = splitAttrsGo (attrs ++ pre) ts := by
  induction pre using isAttrList.induct with
  | case1 =>
      intro _ attrs ts
      simp
  | case2 c sp d inner rest ih =>
      intro h attrs ts
      simp only [isAttrList, Bool.and_eq_true] at h
      have hcond : (c == '#' && d == Delimiter.bracket) = true := by
        simp [h.1.1, h.1.2]
      rw [List.cons_append, List.cons_append, splitAttrsGo, if_pos hcond, ih h.2]
      simp
  | case3 t hnil hshape =>
      intro h attrs ts
      exfalso
      cases t with
      | nil => exact hnil rfl
      | cons t1 ts1 =>
        cases ts1 with
        | nil => cases t1 <;> simp [isAttrList] at h
        | cons t2 ts2 =>
          cases t1 <;> cases t2 <;> simp [isAttrList] at h
          exact hshape _ _ _ _ _ rfl

theorem isAttrList_append_pair (l : List TokenTree) (c : Char) (sp : Spacing)
    (d : Delimiter) (inner : List TokenTree) :
    isAttrList l = true → (c == '#' && d == Delimiter.bracket) = true →
      isAttrList (l ++ [TokenTree.punct c sp, TokenTree.group d inner]) = true := by
  induction l using isAttrList.induct with
  | case1 =>
      intro _ hc
      simp only [List.nil_append, isAttrList]
      simp [hc]
  | case2 c1 sp1 d1 inner1 rest ih =>
      intro h hc
      simp only [isAttrList, Bool.and_eq_true] at h
      simp only [List.cons_append, isAttrList, Bool.and_eq_true]
      exact ⟨h.1, ih h.2 hc⟩
  | case3 t hnil hshape =>
      intro h hc
      exfalso
      cases t with
      | nil => exact hnil rfl
      | cons t1 ts1 =>
        cases ts1 with
        | nil => cases t1 <;> simp [isAttrList] at h
        | cons t2 ts2 =>
          cases t1 <;> cases t2 <;> simp [isAttrList] at h
          exact hshape _ _ _ _ _ rfl

theorem go_attrs_shape (attrs ts : List TokenTree) :
    isAttrList attrs = true → isAttrList (splitAttrsGo attrs ts).1 = true := by
  induction attrs, ts using splitAttrsGo.induct with
  | case1 attrs c sp d inner rest h ih =>
      intro ha
      rw [splitAttrsGo, if_pos h]
      exact ih (isAttrList_append_pair attrs c sp d inner ha h)
  | case2 attrs c sp d inner rest h =>
      intro ha
      rw [splitAttrsGo, if_neg h]
      exact ha
  | case3 attrs ts h =>
      intro ha
      rw [splitAttrsGo]
      · exact ha
      · exact h

theorem isAttrList_length_even (l : List TokenTree) :
    isAttrList l = true → l.length % 2 = 0 := by
  induction l using isAttrList.induct with
  | case1 => intro _; rfl
  | case2 c sp d inner rest ih =>
      intro h
      simp only [isAttrList, Bool.and_eq_true] at h
      have := ih h.2
      simp only [List.length_cons]
      omega
  | case3 t hnil hshape =>
      intro h
      exfalso
      cases t with
      | nil => exact hnil rfl
      | cons t1 ts1 =>
        cases ts1 with
        | nil => cases t1 <;> simp [isAttrList] at h
        | cons t2 ts2 =>
          cases t1 <;> cases t2 <;> simp [isAttrList] at h
          exact hshape _ _ _ _ _ rfl

theorem go_rest_no_pair (attrs ts : List TokenTree) :
    startsWithPair (splitAttrsGo attrs ts).2 = false := by
  induction attrs, ts using splitAttrsGo.induct with
  | case1 attrs c sp d inner rest h ih =>
      rw [splitAttrsGo, if_pos h]
      exact ih
  | case2 attrs c sp d inner rest h =>
      rw [splitAttrsGo, if_neg h]
      show (c == '#' && d == Delimiter.bracket) = false
      cases hb : (c == '#' && d == Delimiter.bracket) with
      | false => rfl
      | true => exact absurd hb h
  | case3 attrs ts h =>
      rw [splitAttrsGo]
      · cases ts with
        | nil => rfl
        | cons t1 ts1 =>
          cases ts1 with
          | nil => cases t1 <;> rfl
          | cons t2 ts2 =>
            cases t1 <;> cases t2 <;> try rfl
            exact absurd rfl (h _ _ _ _ _)
      · exact h

/-- C1: for every token stream `t`, concatenating the two components returned
by `split_attrs` reproduces `t` exactly, token for token (spacing metadata
included, since `TokenTree.punct` carries it and equality is structural); in
particular no token peeked during a failed lookahead is dropped. -/
theorem split_attrs_roundtrip (t : List TokenTree) :
    (split_attrs t).1 ++ (split_attrs t).2 = t :=
  go_roundtrip [] t

/-- C2: the `rest` component returned by `split_attrs` is maximal: it never
begins with an annotation pair (a `#` punctuation immediately followed by a
bracket-delimited group), or it has fewer than two tokens. -/
theorem split_attrs_rest_maximal (t : List TokenTree) :
    startsWithPair (split_attrs t).2 = false ∨ (split_attrs t).2.length < 2 :=
  Or.inl (go_rest_no_pair [] t)

/-- C3: `prepend injected item` equals `attrs ++ injected ++ rest` where
`(attrs, rest) = split_attrs item`; so the item's leading annotation pairs
come first, verbatim and in order, followed by the injected tokens. -/
theorem prepend_eq_attrs_injected_rest (injected item : List TokenTree) :
    prepend injected item = (split_attrs item).1 ++ injected ++ (split_attrs item).2 :=
  rfl

/-- C4: `append injected item` is the literal concatenation `item ++ injected`,
with no brace-aware insertion and no use of `split_attrs`. -/
theorem append_eq_item_injected (injected item : List TokenTree) :
    append injected item = item ++ injected :=
  rfl

/-- C6: the empty stream is well-behaved at every entry point: `split_attrs`
of the empty stream is a pair of empty streams, and the empty stream is an
identity for the injected argument of both `prepend` and `append`. -/
theorem empty_stream_identities :
    split_attrs [] = ([], []) ∧
      (∀ item, prepend [] item = item) ∧ (∀ item, append [] item = item) := by
  refine ⟨rfl, fun item => ?_, fun item => by simp [append]⟩
  show (split_attrs item).1 ++ [] ++ (split_attrs item).2 = item
  rw [List.append_nil]
  exact go_roundtrip [] item

/-- C7: on an input consisting entirely of annotation pairs, `split_attrs`
returns the whole input as `attrs` and an empty `rest`. -/
theorem split_attrs_all_pairs (t : List TokenTree) (h : isAttrList t = true) :
    split_attrs t = (t, []) := by
  have := go_all_attrs [] t h
  simpa [split_attrs] using this

/-- Witness for C7 at the concrete input `#[a]` (a dangling annotation with
nothing following). -/
theorem split_attrs_all_pairs_witness :
    isAttrList [TokenTree.punct '#' Spacing.alone,
        TokenTree.group Delimiter.bracket [TokenTree.ident "a"]] = true ∧
      split_attrs [TokenTree.punct '#' Spacing.alone,
          TokenTree.group Delimiter.bracket [TokenTree.ident "a"]] =
        ([TokenTree.punct '#' Spacing.alone,
          TokenTree.group Delimiter.bracket [TokenTree.ident "a"]], []) :=
  ⟨rfl, split_attrs_all_pairs _ rfl⟩

/-- C8: all three operations are total and linear-time in the sense that the
output sizes are exactly determined by the input sizes: `split_attrs` consumes
its whole input, and `prepend`/`append` output exactly the tokens given. -/
theorem operations_total_lengths (injected item : List TokenTree) :
    (split_attrs item).1.length + (split_attrs item).2.length = item.length ∧
      (prepend injected item).length = injected.length + item.length ∧
      (append injected item).length = injected.length + item.length := by
  have h : (split_attrs item).1.length + (split_attrs item).2.length =
      item.length := by
    have h2 := congrArg List.length (go_roundtrip [] item)
    simp only [List.length_append, List.length_nil, Nat.zero_add] at h2
    exact h2
  refine ⟨h, ?_, ?_⟩
  · show ((split_attrs item).1 ++ injected ++ (split_attrs item).2).length =
      injected.length + item.length
    simp only [List.length_append]
    omega
  · simp only [append, List.length_append]
    omega

/-- C9: the `attrs` component returned by `split_attrs` is a concatenation of
zero or more annotation pairs — alternating `#` punctuation tokens and
bracket-delimited groups starting with `#` — and so has even length. -/
theorem split_attrs_attrs_shape (t : List TokenTree) :
    isAttrList (split_attrs t).1 = true ∧ (split_attrs t).1.length % 2 = 0 := by
  have h := go_attrs_shape [] t rfl
  exact ⟨h, isAttrList_length_even _ h⟩

/-- C10: applying `prepend` to an empty item yields exactly the injected
tokens. -/
theorem prepend_empty_item (injected : List TokenTree) :
    prepend injected [] = injected := by
  show (split_attrs []).1 ++ injected ++ (split_attrs []).2 = injected
  simp [split_attrs, splitAttrsGo]

/-- C5 counterexample: with item = `#[a]` (a single annotation pair and
nothing else) and injected = `#[b]`, splitting the output of `append` absorbs
the injected pair into the attributes, so the attrs component differs from
that of `split_attrs item`. -/
theorem append_changes_attrs_cex :
    ¬ ((split_attrs (append
          [TokenTree.punct '#' Spacing.alone,
            TokenTree.group Delimiter.bracket [TokenTree.ident "b"]]
          [TokenTree.punct '#' Spacing.alone,
            TokenTree.group Delimiter.bracket [TokenTree.ident "a"]])).1 =
        (split_attrs
          [TokenTree.punct '#' Spacing.alone,
            TokenTree.group Delimiter.bracket [TokenTree.ident "a"]]).1) :=
  fun h => absurd (congrArg List.length h) (by decide)

/-- C5 (amended): `split_attrs` applied to `append injected item` yields the
same attrs as `split_attrs item` whenever `split_attrs item`'s rest followed
by the injected tokens does not begin with an annotation pair — in particular
whenever the rest has two or more tokens. -/
theorem append_preserves_attrs (injected item : List TokenTree)
    (h : startsWithPair ((split_attrs item).2 ++ injected) = false) :
    (split_attrs (append injected item)).1 = (split_attrs item).1 := by
  have hrt : (split_attrs item).1 ++ (split_attrs item).2 = item := by
    simpa using go_roundtrip [] item
  have hattrs : isAttrList (split_attrs item).1 = true := go_attrs_shape [] item rfl
  have key : split_attrs (item ++ injected) =
      ((split_attrs item).1, (split_attrs item).2 ++ injected) := by
    conv_lhs => rw [← hrt]
    show splitAttrsGo [] ((split_attrs item).1 ++ (split_attrs item).2 ++ injected) = _
    rw [List.append_assoc, go_skip _ hattrs, List.nil_append, go_stop _ _ h]
  show (split_attrs (item ++ injected)).1 = (split_attrs item).1
  rw [key]

/-- Witness for the amended C5 at a concrete input: item = `struct Foo`
(rest has two tokens), injected = `x`. -/
theorem append_preserves_attrs_witness :
    startsWithPair ((split_attrs
          [TokenTree.ident "struct", TokenTree.ident "Foo"]).2 ++
        [TokenTree.ident "x"]) = false ∧
      (split_attrs (append [TokenTree.ident "x"]
          [TokenTree.ident "struct", TokenTree.ident "Foo"])).1 =
        (split_attrs [TokenTree.ident "struct", TokenTree.ident "Foo"]).1 :=
  ⟨rfl, append_preserves_attrs _ _ rfl⟩
